import Mathlib

/-!
# Verification of the `lsp-client` transport core

A shallow embedding of the repository's two source modules:

* `src/parsing.rs` — the Frame Reader (`read_message`, `parse_header`) that
  decodes `Content-Length`-framed JSON messages from a byte stream, and
* `src/client.rs` — the correlation engine (`send_request`,
  `send_notification`, `handle_msg`, `number_from_id`, `prepare_lsp_json`)
  that allocates request identifiers and routes responses to callbacks.

Modelling conventions:

* Rust `String`/`&str` values and the byte stream are modelled as `List Char`.
  The Rust code reads and counts UTF-8 bytes; since the writer and the reader
  use the same unit, the char-level model preserves all framing behaviour
  stated in the claims, and the UTF-8 decoding step of `read_message` cannot
  fail on this representation.
* `serde_json::Value` is modelled by the inductive type `Json` below (numbers
  restricted to integers; floating-point numbers are outside the model).
  `serde_json::to_string` / `from_str` and the `jsonrpc_lite` classifier are
  external crates, so they are modelled from the spec at the interface the
  spec gives them (see the individual doc comments).
* Panics (`expect`, `panic!`) are modelled by `Except` errors carrying the
  panic message; fallible Rust functions returning `Result` keep `Except`.
-/

set_option maxHeartbeats 1000000

/-! ## Decimal digits

`natToDigits` models the decimal rendering used by Rust's `Display` for
`usize` (as in `format!("Content-Length: {}", request.len())` and in the
serialization of JSON integers). `Nat.digitChar` is the standard
digit-to-char table of core Lean. -/

/-- Decimal representation of a natural number, most significant digit
first; models Rust's `{}` formatting of an unsigned integer. -/
def natToDigits (n : Nat) : List Char :=
  if _h : n < 10 then [Nat.digitChar n]
  else natToDigits (n / 10) ++ [Nat.digitChar (n % 10)]
  termination_by n
  decreasing_by exact Nat.div_lt_self (by omega) (by omega)

theorem digitChar_toNat : ∀ d : Nat, d < 10 → (Nat.digitChar d).toNat = 48 + d := by
  decide

theorem digitChar_isDigit : ∀ d : Nat, d < 10 → (Nat.digitChar d).isDigit = true := by
  decide

theorem digitChar_not_ws : ∀ d : Nat, d < 10 → (Nat.digitChar d).isWhitespace = false := by
  decide

theorem natToDigits_ne_nil (n : Nat) : natToDigits n ≠ [] := by
  rw [natToDigits]
  split <;> simp

theorem natToDigits_all_digit (n : Nat) :
    ∀ c ∈ natToDigits n, c.isDigit = true := by
  induction n using Nat.strong_induction_on with
  | _ n ih =>
    rw [natToDigits]
    split
    · next h =>
      intro c hc
      simp only [List.mem_singleton] at hc
      subst hc
      exact digitChar_isDigit n h
    · next h =>
      intro c hc
      rcases List.mem_append.mp hc with h1 | h2
      · exact ih (n / 10) (Nat.div_lt_self (by omega) (by omega)) c h1
      · simp only [List.mem_singleton] at h2
        subst h2
        exact digitChar_isDigit _ (Nat.mod_lt _ (by omega))

/-- One step of decimal accumulation, as performed by `str::parse::<u64>`. -/
def digitStep (acc : Nat) (c : Char) : Nat := acc * 10 + (c.toNat - 48)

theorem foldl_digitStep_append (l1 l2 : List Char) (acc : Nat) :
    (l1 ++ l2).foldl digitStep acc = l2.foldl digitStep (l1.foldl digitStep acc) := by
  simp [List.foldl_append]

theorem foldl_digitStep_natToDigits (n : Nat) :
    (natToDigits n).foldl digitStep 0 = n := by
  suffices h : ∀ m : Nat, ∀ acc : Nat, (natToDigits m).foldl digitStep acc =
      acc * 10 ^ (natToDigits m).length + m by
    have := h n 0
    simpa using this
  intro m
  induction m using Nat.strong_induction_on with
  | _ m ih =>
    intro acc
    rw [natToDigits]
    split
    · next h =>
      simp [List.foldl, digitStep, digitChar_toNat m h]
    · next h =>
      rw [foldl_digitStep_append]
      have hlt : m / 10 < m := Nat.div_lt_self (by omega) (by omega)
      rw [ih (m / 10) hlt acc]
      simp only [List.foldl, digitStep, List.length_append, List.length_singleton]
      rw [digitChar_toNat (m % 10) (Nat.mod_lt _ (by omega))]
      have : acc * 10 ^ ((natToDigits (m / 10)).length + 1) =
          (acc * 10 ^ (natToDigits (m / 10)).length) * 10 := by ring
      rw [this]
      omega

/-- Models `str::parse::<u64>` / `<usize>`: an optional leading `+`, then a
non-empty run of decimal digits.  (Overflow of the 64-bit range is not
modelled.) -/
def parseUsize (s : List Char) : Option Nat :=
  let digits := if s.head? = some '+' then s.tail else s
  if digits.isEmpty then none
  else if digits.all Char.isDigit then some (digits.foldl digitStep 0)
  else none

theorem isDigit_ne_plus {c : Char} (h : c.isDigit = true) : c ≠ '+' := by
  intro he; subst he; simp [Char.isDigit] at h

theorem parseUsize_natToDigits (n : Nat) : parseUsize (natToDigits n) = some n := by
  unfold parseUsize
  have hne := natToDigits_ne_nil n
  have hall := natToDigits_all_digit n
  obtain ⟨c, cs, hcs⟩ := List.exists_cons_of_ne_nil hne
  have hc : c.isDigit = true := hall c (by rw [hcs]; exact List.mem_cons_self _ _)
  have hhead : (natToDigits n).head? ≠ some '+' := by
    rw [hcs]
    simp only [List.head?_cons, ne_eq, Option.some.injEq]
    exact isDigit_ne_plus hc
  simp only [if_neg hhead]
  rw [if_neg (by simp [List.isEmpty_iff, hne]), if_pos (by
    rw [List.all_eq_true]; exact hall)]
  rw [foldl_digitStep_natToDigits]


/-! ## List helpers (dropWhile facts used for `str::trim`) -/

theorem dropWhile_cons_false {p : Char → Bool} {c : Char} (h : p c = false)
    (l : List Char) : List.dropWhile p (c :: l) = c :: l := by
  simp [List.dropWhile, h]

theorem dropWhile_all_false {p : Char → Bool} {l : List Char}
    (h : ∀ c ∈ l, p c = false) : List.dropWhile p l = l := by
  induction l with
  | nil => rfl
  | cons c cs ih =>
    rw [dropWhile_cons_false (h c (List.mem_cons_self c cs))]

theorem dropWhile_append_all {p : Char → Bool} {a : List Char} (b : List Char)
    (h : ∀ c ∈ a, p c = true) : List.dropWhile p (a ++ b) = List.dropWhile p b := by
  induction a with
  | nil => rfl
  | cons c cs ih =>
    simp only [List.cons_append, List.dropWhile]
    rw [h c (List.mem_cons_self c cs)]
    exact ih (fun x hx => h x (List.mem_cons_of_mem c hx))

theorem dropWhile_eq_nil_all {p : Char → Bool} {l : List Char}
    (h : List.dropWhile p l = []) : ∀ c ∈ l, p c = true := by
  induction l with
  | nil => intro c hc; simp at hc
  | cons c cs ih =>
    by_cases hp : p c = true
    · intro x hx
      rcases List.mem_cons.mp hx with rfl | hx'
      · exact hp
      · simp only [List.dropWhile, hp] at h
        exact ih h x hx'
    · rw [dropWhile_cons_false (by simpa using hp)] at h
      simp at h

/-! ## Rust string primitives used by `parse_header`

`src/parsing.rs` line 132:
`let split: Vec<String> = s.split(": ").map(|s| s.trim().to_lowercase()).collect();`
-/

/-- Models `str::split(": ")`: splits on every (non-overlapping, left-to-right)
occurrence of the two-character separator `": "`. -/
def splitColonSpace : List Char → List (List Char)
  | [] => [[]]
  | [c] => [[c]]
  | c1 :: c2 :: rest =>
    if c1 = ':' ∧ c2 = ' ' then
      [] :: splitColonSpace rest
    else
      match splitColonSpace (c2 :: rest) with
      | [] => [[c1]]
      | p :: ps => (c1 :: p) :: ps

theorem splitColonSpace_ne_nil (s : List Char) : splitColonSpace s ≠ [] := by
  match s with
  | [] => simp [splitColonSpace]
  | [c] => simp [splitColonSpace]
  | c1 :: c2 :: rest =>
    have ih := splitColonSpace_ne_nil (c2 :: rest)
    simp only [splitColonSpace]
    split
    · simp
    · obtain ⟨p, ps, hp⟩ := List.exists_cons_of_ne_nil ih
      rw [hp]
      simp
  termination_by s.length

theorem splitColonSpace_cons_head {c1 : Char} {cs : List Char} (h : c1 ≠ ':') :
    splitColonSpace (c1 :: cs) =
      (c1 :: (splitColonSpace cs).headI) :: (splitColonSpace cs).tail := by
  match cs with
  | [] => simp [splitColonSpace, List.headI]
  | c2 :: rest =>
    simp only [splitColonSpace]
    rw [if_neg (by simp [h])]
    obtain ⟨p, ps, hp⟩ := List.exists_cons_of_ne_nil (splitColonSpace_ne_nil (c2 :: rest))
    rw [hp]
    simp [List.headI]

theorem splitColonSpace_no_colon (s : List Char) (h : ':' ∉ s) :
    splitColonSpace s = [s] := by
  induction s with
  | nil => simp [splitColonSpace]
  | cons c cs ih =>
    have hc : c ≠ ':' := fun he => h (he ▸ List.mem_cons_self c cs)
    have hcs : ':' ∉ cs := fun hm => h (List.mem_cons_of_mem c hm)
    rw [splitColonSpace_cons_head hc, ih hcs]
    simp [List.headI]

theorem splitColonSpace_sep (l1 l2 : List Char) (h : ':' ∉ l1) :
    splitColonSpace (l1 ++ ':' :: ' ' :: l2) = l1 :: splitColonSpace l2 := by
  induction l1 with
  | nil => simp [splitColonSpace]
  | cons c cs ih =>
    have hc : c ≠ ':' := fun he => h (he ▸ List.mem_cons_self c cs)
    have hcs : ':' ∉ cs := fun hm => h (List.mem_cons_of_mem c hm)
    simp only [List.cons_append]
    rw [splitColonSpace_cons_head hc, ih hcs]
    simp [List.headI]

/-- Models `str::trim` (drops leading and trailing whitespace). -/
def rsTrim (s : List Char) : List Char :=
  ((s.dropWhile Char.isWhitespace).reverse.dropWhile Char.isWhitespace).reverse

/-- Models `str::to_lowercase` (the header strings in play are ASCII, where
`Char.toLower` and Rust's `to_lowercase` agree). -/
def rsToLower (s : List Char) : List Char :=
  s.map Char.toLower

theorem rsTrim_nonws_head {c : Char} (hc : c.isWhitespace = false) (l : List Char) :
    rsTrim (c :: l) ≠ [] := by
  unfold rsTrim
  rw [dropWhile_cons_false hc]
  intro h
  rw [List.reverse_eq_nil_iff] at h
  have := dropWhile_eq_nil_all h c (by rw [List.reverse_cons]; exact List.mem_append_right _ (List.mem_singleton_self c))
  rw [hc] at this
  exact Bool.false_ne_true this

/-- If every char of `l` is non-whitespace and every char of `suf` is
whitespace, trimming `l ++ suf` gives `l`. -/
theorem rsTrim_append_ws (l suf : List Char) (hl : ∀ c ∈ l, c.isWhitespace = false)
    (hsuf : ∀ c ∈ suf, c.isWhitespace = true) (hne : l ≠ []) :
    rsTrim (l ++ suf) = l := by
  unfold rsTrim
  obtain ⟨c, cs, rfl⟩ := List.exists_cons_of_ne_nil hne
  rw [List.cons_append, dropWhile_cons_false (hl c (List.mem_cons_self c cs))]
  rw [← List.cons_append, List.reverse_append]
  rw [dropWhile_append_all _ (fun x hx => hsuf x (List.mem_reverse.mp hx))]
  rw [dropWhile_all_false (fun x hx => hl x (List.mem_reverse.mp hx))]
  simp

theorem rsTrim_all_ws {l : List Char} (h : ∀ c ∈ l, c.isWhitespace = true) :
    rsTrim l = [] := by
  have h1 : List.dropWhile Char.isWhitespace l = [] := by
    have := dropWhile_append_all (p := Char.isWhitespace) ([] : List Char) h
    simpa using this
  unfold rsTrim
  rw [h1]
  simp [List.dropWhile]

/-! ## `src/parsing.rs`: error type and header parser -/

/-- `ParseError` from `src/parsing.rs` (payloads are the formatted message
strings; `IoError` models the `Io` variant). -/
inductive ParseError where
  | IoError (msg : List Char)
  | ParseInt (msg : List Char)
  | Utf8 (msg : List Char)
  | Encoding (msg : List Char)
  | Json (msg : List Char)
  | Unknown (msg : List Char)
  | Empty
  deriving DecidableEq

/-- `LspHeader` from `src/parsing.rs`. -/
inductive LspHeader where
  | ContentType
  | ContentLength (len : Nat)
  deriving DecidableEq

/-- `parse_header` from `src/parsing.rs` lines 131-154: split the line on
every `": "`, trim and lower-case each piece, require exactly two pieces,
then dispatch on the header name. -/
def parse_header (s : List Char) : Except ParseError LspHeader :=
  match (splitColonSpace s).map (fun p => rsToLower (rsTrim p)) with
  | [name, value] =>
    if name = "content-type".data then
      let encoding := rsToLower value
      if encoding = "utf-8".data ∨ encoding = "utf8".data then
        Except.ok LspHeader.ContentType
      else
        Except.error (ParseError.Encoding ("Invalid encoding: ".data ++ value))
    else if name = "content-length".data then
      match parseUsize value with
      | some n => Except.ok (LspHeader.ContentLength n)
      | none => Except.error (ParseError.ParseInt value)
    else
      Except.error (ParseError.Unknown ("Unknown header: ".data ++ s))
  | _ => Except.error (ParseError.Unknown ("malformed header: ".data ++ s))

theorem isDigit_toNat_bounds {c : Char} (h : c.isDigit = true) :
    48 ≤ c.toNat ∧ c.toNat ≤ 57 := by
  simp only [Char.isDigit, ge_iff_le, Bool.and_eq_true, decide_eq_true_eq] at h
  obtain ⟨h1, h2⟩ := h
  rw [UInt32.le_def, BitVec.le_def] at h1 h2
  exact ⟨h1, h2⟩

theorem isDigit_not_ws {c : Char} (h : c.isDigit = true) : c.isWhitespace = false := by
  have h1 : c ≠ ' ' := by rintro rfl; exact absurd h (by decide)
  have h2 : c ≠ '\t' := by rintro rfl; exact absurd h (by decide)
  have h3 : c ≠ '\r' := by rintro rfl; exact absurd h (by decide)
  have h4 : c ≠ '\n' := by rintro rfl; exact absurd h (by decide)
  simp [Char.isWhitespace, h1, h2, h3, h4]

theorem isDigit_ne {c : Char} (h : c.isDigit = true) :
    c ≠ ':' ∧ c ≠ '\n' ∧ c ≠ '\r' := by
  refine ⟨?_, ?_, ?_⟩ <;> rintro rfl <;> exact absurd h (by decide)

theorem toLower_digit {c : Char} (h : c.isDigit = true) : c.toLower = c := by
  unfold Char.toLower
  rw [if_neg]
  intro ⟨h1, _⟩
  have := (isDigit_toNat_bounds h).2
  omega

theorem rsToLower_digits {l : List Char} (h : ∀ c ∈ l, c.isDigit = true) :
    rsToLower l = l := by
  unfold rsToLower
  induction l with
  | nil => rfl
  | cons c cs ih =>
    simp only [List.map_cons]
    rw [toLower_digit (h c (List.mem_cons_self c cs)),
      ih (fun x hx => h x (List.mem_cons_of_mem c hx))]

/-- The canonical `Content-Length` header line emitted by the writer and fed
to the reader, including the terminating CRLF. -/
def clLine (n : Nat) : List Char :=
  "Content-Length: ".data ++ natToDigits n ++ ['\r', '\n']

/-- Parsing the value part `<digits>\r\n` of a content-length line. -/
theorem parse_header_clPiece (n : Nat) :
    rsToLower (rsTrim (natToDigits n ++ ['\r', '\n'])) = natToDigits n := by
  rw [rsTrim_append_ws (natToDigits n) ['\r', '\n']
    (fun c hc => isDigit_not_ws (natToDigits_all_digit n c hc))
    (by intro c hc; rcases List.mem_cons.mp hc with rfl | hc' <;> simp_all)
    (natToDigits_ne_nil n)]
  exact rsToLower_digits (natToDigits_all_digit n)

/-- `parse_header` accepts the canonical content-length line (with its CRLF
still attached, as `read_message` passes it). -/
theorem parse_header_clLine (n : Nat) :
    parse_header ("Content-Length".data ++ ':' :: ' ' :: (natToDigits n ++ ['\r', '\n'])) =
      Except.ok (LspHeader.ContentLength n) := by
  unfold parse_header
  rw [splitColonSpace_sep _ _ (by decide)]
  rw [splitColonSpace_no_colon _ (by
    intro hmem
    rcases List.mem_append.mp hmem with h1 | h2
    · exact ((isDigit_ne (natToDigits_all_digit n _ h1)).1 rfl).elim
    · rcases List.mem_cons.mp h2 with h3 | h3 <;> simp_all)]
  simp only [List.map_cons, List.map_nil]
  rw [parse_header_clPiece]
  have hname : rsToLower (rsTrim "Content-Length".data) = "content-length".data := by decide
  rw [hname]
  rw [if_neg (by decide)]
  rw [if_pos rfl]
  rw [parseUsize_natToDigits]

/-! ## JSON values

Modelled from the spec: the JSON data model used by the external
`serde_json` crate at the interface the spec gives it (§3, §4.1 step 6,
§4.2).  Numbers are restricted to (arbitrary-precision) integers;
floating-point numbers are outside the model.  Objects and arrays keep
their member order, which is all the round-trip claims need. -/

mutual

inductive Json where
  | null
  | bool (b : Bool)
  | num (n : Int)
  | str (s : List Char)
  | arr (xs : JsonList)
  | obj (ms : JsonMembers)

inductive JsonList where
  | nil
  | cons (v : Json) (tl : JsonList)

inductive JsonMembers where
  | nil
  | cons (k : List Char) (v : Json) (tl : JsonMembers)

end

deriving instance DecidableEq for Json

/-- Hex digit table used by serde's `\u00XX` escapes (lower-case). -/
def hexDigitChar (n : Nat) : Char := Nat.digitChar n

/-- Modelled from the spec: serde_json's escaping of one character inside a
JSON string literal (quote, backslash, and the named/`\u00XX` control
escapes; everything else is emitted verbatim). -/
def escChar (c : Char) : List Char :=
  if c = '"' then ['\\', '"']
  else if c = '\\' then ['\\', '\\']
  else if c = '\x08' then ['\\', 'b']
  else if c = '\t' then ['\\', 't']
  else if c = '\n' then ['\\', 'n']
  else if c = '\x0c' then ['\\', 'f']
  else if c = '\r' then ['\\', 'r']
  else if c.toNat < 32 then
    ['\\', 'u', '0', '0', hexDigitChar (c.toNat / 16), hexDigitChar (c.toNat % 16)]
  else [c]

/-- Body of a serialized string literal (without the enclosing quotes). -/
def serStrBody : List Char → List Char
  | [] => []
  | c :: cs => escChar c ++ serStrBody cs

/-- A serialized string literal, quotes included. -/
def serStr (s : List Char) : List Char :=
  '"' :: serStrBody s ++ ['"']

/-- Serialization of a JSON integer (decimal, `-` sign for negatives). -/
def serNum (n : Int) : List Char :=
  if n < 0 then '-' :: natToDigits (-n).toNat else natToDigits n.toNat

mutual

/-- Modelled from the spec: `serde_json::to_string` of a JSON value (§4.2
"serialize one JSON value ... the UTF-8 JSON encoding").  No whitespace is
emitted. -/
def serVal : Json → List Char
  | Json.null => "null".data
  | Json.bool true => "true".data
  | Json.bool false => "false".data
  | Json.num n => serNum n
  | Json.str s => serStr s
  | Json.arr JsonList.nil => ['[', ']']
  | Json.arr (JsonList.cons v tl) => '[' :: serVal v ++ serListTail tl ++ [']']
  | Json.obj JsonMembers.nil => ['{', '}']
  | Json.obj (JsonMembers.cons k v tl) =>
    '{' :: serStr k ++ ':' :: serVal v ++ serMembersTail tl ++ ['}']

/-- Serialization of the second and later array elements (each preceded by a
comma); the closing bracket is emitted by the caller. -/
def serListTail : JsonList → List Char
  | JsonList.nil => []
  | JsonList.cons v tl => ',' :: serVal v ++ serListTail tl

/-- Serialization of the second and later object members. -/
def serMembersTail : JsonMembers → List Char
  | JsonMembers.nil => []
  | JsonMembers.cons k v tl => ',' :: serStr k ++ ':' :: serVal v ++ serMembersTail tl

end

/-- Value of a hex digit, as accepted by a JSON `\uXXXX` escape. -/
def hexVal (c : Char) : Option Nat :=
  if c.isDigit then some (c.toNat - 48)
  else if 'a' ≤ c ∧ c ≤ 'f' then some (c.toNat - 87)
  else if 'A' ≤ c ∧ c ≤ 'F' then some (c.toNat - 55)
  else none

/-- Parses the body of a JSON string literal up to and including the closing
quote, returning the decoded characters and the remaining input.  Raw
control characters and lone surrogate escapes are rejected, escape
sequences are decoded. -/
def parseStrBody : List Char → Option (List Char × List Char)
  | [] => none
  | c :: r =>
    if c = '"' then some ([], r)
    else if c = '\\' then
      match r with
      | [] => none
      | e :: r2 =>
        if e = '"' then (parseStrBody r2).map (fun p => ('"' :: p.1, p.2))
        else if e = '\\' then (parseStrBody r2).map (fun p => ('\\' :: p.1, p.2))
        else if e = '/' then (parseStrBody r2).map (fun p => ('/' :: p.1, p.2))
        else if e = 'b' then (parseStrBody r2).map (fun p => ('\x08' :: p.1, p.2))
        else if e = 'f' then (parseStrBody r2).map (fun p => ('\x0c' :: p.1, p.2))
        else if e = 'n' then (parseStrBody r2).map (fun p => ('\n' :: p.1, p.2))
        else if e = 'r' then (parseStrBody r2).map (fun p => ('\r' :: p.1, p.2))
        else if e = 't' then (parseStrBody r2).map (fun p => ('\t' :: p.1, p.2))
        else if e = 'u' then
          match r2 with
          | h1 :: h2 :: h3 :: h4 :: r3 =>
            match hexVal h1, hexVal h2, hexVal h3, hexVal h4 with
            | some a, some b, some c2, some d =>
              let n := ((a * 16 + b) * 16 + c2) * 16 + d
              if 0xD800 ≤ n ∧ n ≤ 0xDFFF then none
              else (parseStrBody r3).map (fun p => (Char.ofNat n :: p.1, p.2))
            | _, _, _, _ => none
          | _ => none
        else none
    else if c.toNat < 32 then none
    else (parseStrBody r).map (fun p => (c :: p.1, p.2))

/-- Requires `pat` as a literal prefix of the input (used for the keyword
literals `null`, `true`, `false`). -/
def expectStr (pat : List Char) (s : List Char) : Option (List Char) :=
  if pat.isPrefixOf s then some (s.drop pat.length) else none

/-- Parses a non-empty run of decimal digits; does not consume past them. -/
def parseDigitsNE (s : List Char) : Option (Nat × List Char) :=
  let ds := s.takeWhile Char.isDigit
  if ds.isEmpty then none
  else some (ds.foldl digitStep 0, s.dropWhile Char.isDigit)

mutual

/-- Modelled from the spec: `serde_json::from_str`'s recursive-descent value
parser (§4.1 step 6 "Parse the string as JSON"), restricted to
whitespace-free documents (the serializer emits none) and integer numbers.
The restriction only ever makes the parser reject more inputs than
serde_json does.  `fuel` bounds the recursion depth; `jsonParse` below
always supplies enough. -/
def parseVal : Nat → List Char → Option (Json × List Char)
  | 0, _ => none
  | _ + 1, [] => none
  | fuel + 1, c :: r =>
    if c = 'n' then (expectStr "ull".data r).map (fun r2 => (Json.null, r2))
    else if c = 't' then (expectStr "rue".data r).map (fun r2 => (Json.bool true, r2))
    else if c = 'f' then (expectStr "alse".data r).map (fun r2 => (Json.bool false, r2))
    else if c = '"' then (parseStrBody r).map (fun p => (Json.str p.1, p.2))
    else if c = '[' then
      match r with
      | [] => none
      | c2 :: r2 =>
        if c2 = ']' then some (Json.arr JsonList.nil, r2)
        else
          match parseVal fuel (c2 :: r2) with
          | some (v, r3) =>
            match parseListTail fuel r3 with
            | some (tl, r4) => some (Json.arr (JsonList.cons v tl), r4)
            | none => none
          | none => none
    else if c = '{' then
      match r with
      | [] => none
      | c2 :: r2 =>
        if c2 = '}' then some (Json.obj JsonMembers.nil, r2)
        else if c2 = '"' then
          match parseStrBody r2 with
          | some (k, r3) =>
            match r3 with
            | [] => none
            | c3 :: r4 =>
              if c3 = ':' then
                match parseVal fuel r4 with
                | some (v, r5) =>
                  match parseMembersTail fuel r5 with
                  | some (tl, r6) => some (Json.obj (JsonMembers.cons k v tl), r6)
                  | none => none
                | none => none
              else none
          | none => none
        else none
    else if c = '-' then
      match parseDigitsNE r with
      | some (n, r2) => some (Json.num (-(n : Int)), r2)
      | none => none
    else if c.isDigit then
      match parseDigitsNE (c :: r) with
      | some (n, r2) => some (Json.num (n : Int), r2)
      | none => none
    else none

/-- Parses `,`-separated further array elements up to the closing `]`. -/
def parseListTail : Nat → List Char → Option (JsonList × List Char)
  | 0, _ => none
  | _ + 1, [] => none
  | fuel + 1, c :: r =>
    if c = ']' then some (JsonList.nil, r)
    else if c = ',' then
      match parseVal fuel r with
      | some (v, r2) =>
        match parseListTail fuel r2 with
        | some (tl, r3) => some (JsonList.cons v tl, r3)
        | none => none
      | none => none
    else none

/-- Parses `,`-separated further object members up to the closing brace. -/
def parseMembersTail : Nat → List Char → Option (JsonMembers × List Char)
  | 0, _ => none
  | _ + 1, [] => none
  | fuel + 1, c :: r =>
    if c = '}' then some (JsonMembers.nil, r)
    else if c = ',' then
      match r with
      | [] => none
      | c2 :: r2 =>
        if c2 = '"' then
          match parseStrBody r2 with
          | some (k, r3) =>
            match r3 with
            | [] => none
            | c3 :: r4 =>
              if c3 = ':' then
                match parseVal fuel r4 with
                | some (v, r5) =>
                  match parseMembersTail fuel r5 with
                  | some (tl, r6) => some (JsonMembers.cons k v tl, r6)
                  | none => none
                | none => none
              else none
          | none => none
        else none
    else none

end

/-- JSON whitespace as skipped by `serde_json::from_str` around the
top-level value. -/
def skipWs (s : List Char) : List Char :=
  s.dropWhile (fun c => c = ' ' || c = '\t' || c = '\n' || c = '\r')

/-- Modelled from the spec: `serde_json::from_str` — parse one JSON value,
allowing surrounding whitespace, requiring the whole input to be consumed.
The error payload is the message only. -/
def jsonParse (s : List Char) : Except (List Char) Json :=
  let t := skipWs s
  match parseVal (2 * t.length + 2) t with
  | some (v, r) =>
    if skipWs r = [] then Except.ok v
    else Except.error "trailing characters".data
  | none => Except.error "EOF while parsing a value".data

/-! ## Round-trip lemmas: serializing then parsing a JSON value -/

theorem isPrefixOf_append (pat rest : List Char) :
    pat.isPrefixOf (pat ++ rest) = true := by
  induction pat with
  | nil => simp [List.isPrefixOf]
  | cons c cs ih => simp [List.isPrefixOf, ih]

theorem expectStr_append (pat rest : List Char) :
    expectStr pat (pat ++ rest) = some rest := by
  unfold expectStr
  rw [if_pos (isPrefixOf_append pat rest)]
  rw [List.drop_left]

theorem hexVal_hexDigitChar : ∀ n : Nat, n < 16 → hexVal (hexDigitChar n) = some n := by
  decide

theorem takeWhile_append_all {p : Char → Bool} {a : List Char} (b : List Char)
    (h : ∀ c ∈ a, p c = true) :
    List.takeWhile p (a ++ b) = a ++ List.takeWhile p b := by
  induction a with
  | nil => rfl
  | cons c cs ih =>
    simp only [List.cons_append, List.takeWhile]
    rw [h c (List.mem_cons_self c cs)]
    simp only [List.append_eq, List.cons_append]
    rw [ih (fun x hx => h x (List.mem_cons_of_mem c hx))]

theorem takeWhile_cons_false {p : Char → Bool} {c : Char} (h : p c = false)
    (l : List Char) : List.takeWhile p (c :: l) = [] := by
  simp [List.takeWhile, h]

/-- `rest` does not start with a decimal digit (so a number parse stops
exactly at the serialized digits). -/
def noDigitStart : List Char → Bool
  | [] => true
  | c :: _ => !c.isDigit

theorem parseDigitsNE_natToDigits (m : Nat) (rest : List Char)
    (h : noDigitStart rest = true) :
    parseDigitsNE (natToDigits m ++ rest) = some (m, rest) := by
  have htw : List.takeWhile Char.isDigit rest = [] := by
    cases rest with
    | nil => rfl
    | cons c cs =>
      simp only [noDigitStart, Bool.not_eq_true'] at h
      exact takeWhile_cons_false h cs
  have hdw : List.dropWhile Char.isDigit rest = rest := by
    cases rest with
    | nil => rfl
    | cons c cs =>
      simp only [noDigitStart, Bool.not_eq_true'] at h
      exact dropWhile_cons_false h cs
  unfold parseDigitsNE
  rw [takeWhile_append_all rest (natToDigits_all_digit m), htw,
    dropWhile_append_all rest (natToDigits_all_digit m), hdw]
  simp only [List.append_nil]
  rw [if_neg (by simp [List.isEmpty_iff, natToDigits_ne_nil m])]
  rw [foldl_digitStep_natToDigits]

theorem parseStrBody_raw {c : Char} (h1 : c ≠ '"') (h2 : c ≠ '\\')
    (h3 : ¬ c.toNat < 32) (l : List Char) :
    parseStrBody (c :: l) = (parseStrBody l).map (fun p => (c :: p.1, p.2)) := by
  rw [parseStrBody.eq_def]
  simp only []
  rw [if_neg h1, if_neg h2, if_neg h3]

/-- Parsing inverts serde's one-character escape. -/
theorem parseStrBody_escChar (c : Char) (l : List Char) :
    parseStrBody (escChar c ++ l) = (parseStrBody l).map (fun p => (c :: p.1, p.2)) := by
  unfold escChar
  by_cases h1 : c = '"'
  · subst h1; rw [if_pos rfl, parseStrBody.eq_def]; simp
  rw [if_neg h1]
  by_cases h2 : c = '\\'
  · subst h2; rw [if_pos rfl, parseStrBody.eq_def]; simp
  rw [if_neg h2]
  by_cases h3 : c = '\x08'
  · subst h3; rw [if_pos rfl, parseStrBody.eq_def]; simp
  rw [if_neg h3]
  by_cases h4 : c = '\t'
  · subst h4; rw [if_pos rfl, parseStrBody.eq_def]; simp
  rw [if_neg h4]
  by_cases h5 : c = '\n'
  · subst h5; rw [if_pos rfl, parseStrBody.eq_def]; simp
  rw [if_neg h5]
  by_cases h6 : c = '\x0c'
  · subst h6; rw [if_pos rfl, parseStrBody.eq_def]; simp
  rw [if_neg h6]
  by_cases h7 : c = '\r'
  · subst h7; rw [if_pos rfl, parseStrBody.eq_def]; simp
  rw [if_neg h7]
  by_cases h8 : c.toNat < 32
  · rw [if_pos h8]
    have hdiv : c.toNat / 16 < 16 := by omega
    have hmod : c.toNat % 16 < 16 := by omega
    simp only [List.cons_append, List.nil_append]
    rw [parseStrBody.eq_def]
    simp only [Char.reduceEq, reduceIte]
    rw [show hexVal '0' = some 0 from rfl]
    rw [hexVal_hexDigitChar _ hdiv, hexVal_hexDigitChar _ hmod]
    simp only []
    rw [if_neg (by omega)]
    have hn : ((0 * 16 + 0) * 16 + c.toNat / 16) * 16 + c.toNat % 16 = c.toNat := by
      omega
    rw [hn, Char.ofNat_toNat]
  · rw [if_neg h8]
    simp only [List.cons_append, List.nil_append]
    exact parseStrBody_raw h1 h2 h8 l

/-- Round trip for string literal bodies. -/
theorem parseStrBody_serStrBody (cs rest : List Char) :
    parseStrBody (serStrBody cs ++ '"' :: rest) = some (cs, rest) := by
  induction cs with
  | nil =>
    show parseStrBody ([] ++ '"' :: rest) = some ([], rest)
    rw [List.nil_append, parseStrBody.eq_def]
    simp
  | cons c cs ih =>
    simp only [serStrBody, List.append_assoc]
    rw [parseStrBody_escChar, ih]
    rfl

/-! ## Fuel measure for the parser -/

mutual

def jsize : Json → Nat
  | Json.null => 1
  | Json.bool _ => 1
  | Json.num _ => 1
  | Json.str _ => 1
  | Json.arr xs => 1 + jsizeL xs
  | Json.obj ms => 1 + jsizeM ms

def jsizeL : JsonList → Nat
  | JsonList.nil => 1
  | JsonList.cons v tl => 1 + jsize v + jsizeL tl

def jsizeM : JsonMembers → Nat
  | JsonMembers.nil => 1
  | JsonMembers.cons _ v tl => 1 + jsize v + jsizeM tl

end

theorem jsize_pos (v : Json) : 1 ≤ jsize v := by
  cases v <;> simp [jsize]

theorem jsizeL_pos (tl : JsonList) : 1 ≤ jsizeL tl := by
  cases tl <;> simp [jsizeL] <;> omega

theorem jsizeM_pos (ms : JsonMembers) : 1 ≤ jsizeM ms := by
  cases ms <;> simp [jsizeM] <;> omega

/-- Every serialization is non-empty and starts with a character that is not
whitespace, not `]`, not `}`, not `,` and not `:`. -/
theorem serVal_head (v : Json) :
    ∃ c cs, serVal v = c :: cs ∧
      (c = 'n' ∨ c = 't' ∨ c = 'f' ∨ c = '"' ∨ c = '[' ∨ c = '{' ∨ c = '-' ∨
        c.isDigit = true) := by
  cases v with
  | null => exact ⟨'n', _, rfl, by simp⟩
  | bool b => cases b with
    | true => exact ⟨'t', _, rfl, by simp⟩
    | false => exact ⟨'f', _, rfl, by simp⟩
  | num n =>
    show ∃ c cs, serNum n = c :: cs ∧ _
    unfold serNum
    by_cases hn : n < 0
    · rw [if_pos hn]
      exact ⟨'-', _, rfl, by simp⟩
    · rw [if_neg hn]
      obtain ⟨c, cs, hcs⟩ := List.exists_cons_of_ne_nil (natToDigits_ne_nil n.toNat)
      refine ⟨c, cs, hcs, ?_⟩
      have := natToDigits_all_digit n.toNat c (by rw [hcs]; exact List.mem_cons_self _ _)
      tauto
  | str s => exact ⟨'"', _, rfl, by simp⟩
  | arr xs => cases xs with
    | nil => exact ⟨'[', _, rfl, by simp⟩
    | cons v tl => exact ⟨'[', _, rfl, by simp⟩
  | obj ms => cases ms with
    | nil => exact ⟨'{', _, rfl, by simp⟩
    | cons k v tl => exact ⟨'{', _, rfl, by simp⟩

theorem serVal_head_props {c : Char}
    (h : c = 'n' ∨ c = 't' ∨ c = 'f' ∨ c = '"' ∨ c = '[' ∨ c = '{' ∨ c = '-' ∨
      c.isDigit = true) :
    c ≠ ']' ∧ c ≠ '}' ∧ (c = ' ' || c = '\t' || c = '\n' || c = '\r') = false := by
  rcases h with rfl | rfl | rfl | rfl | rfl | rfl | rfl | hd
  · exact ⟨by decide, by decide, by decide⟩
  · exact ⟨by decide, by decide, by decide⟩
  · exact ⟨by decide, by decide, by decide⟩
  · exact ⟨by decide, by decide, by decide⟩
  · exact ⟨by decide, by decide, by decide⟩
  · exact ⟨by decide, by decide, by decide⟩
  · exact ⟨by decide, by decide, by decide⟩
  · refine ⟨?_, ?_, ?_⟩
    · rintro rfl; exact absurd hd (by decide)
    · rintro rfl; exact absurd hd (by decide)
    · have h1 : c ≠ ' ' := by rintro rfl; exact absurd hd (by decide)
      have h2 : c ≠ '\t' := by rintro rfl; exact absurd hd (by decide)
      have h3 : c ≠ '\n' := by rintro rfl; exact absurd hd (by decide)
      have h4 : c ≠ '\r' := by rintro rfl; exact absurd hd (by decide)
      simp [h1, h2, h3, h4]

theorem noDigitStart_serListTail (tl : JsonList) (rest : List Char) :
    noDigitStart (serListTail tl ++ ']' :: rest) = true := by
  cases tl with
  | nil => simp [serListTail, noDigitStart]
  | cons v tl => simp [serListTail, noDigitStart]

theorem noDigitStart_serMembersTail (ms : JsonMembers) (rest : List Char) :
    noDigitStart (serMembersTail ms ++ '}' :: rest) = true := by
  cases ms with
  | nil => simp [serMembersTail, noDigitStart]
  | cons k v tl => simp [serMembersTail, noDigitStart]

/-- Dispatch for the number branch of `parseVal`: a digit head falls through
all keyword/structure tests. -/
theorem parseVal_digit {fuel : Nat} {d : Char} (hd : d.isDigit = true) (r : List Char) :
    parseVal (fuel + 1) (d :: r) =
      match parseDigitsNE (d :: r) with
      | some (n, r2) => some (Json.num (n : Int), r2)
      | none => none := by
  have h1 : d ≠ 'n' := by rintro rfl; exact absurd hd (by decide)
  have h2 : d ≠ 't' := by rintro rfl; exact absurd hd (by decide)
  have h3 : d ≠ 'f' := by rintro rfl; exact absurd hd (by decide)
  have h4 : d ≠ '"' := by rintro rfl; exact absurd hd (by decide)
  have h5 : d ≠ '[' := by rintro rfl; exact absurd hd (by decide)
  have h6 : d ≠ '{' := by rintro rfl; exact absurd hd (by decide)
  have h7 : d ≠ '-' := by rintro rfl; exact absurd hd (by decide)
  rw [parseVal.eq_def]
  simp only []
  rw [if_neg h1, if_neg h2, if_neg h3, if_neg h4, if_neg h5, if_neg h6, if_neg h7,
    if_pos hd]

mutual

/-- Parsing inverts serialization for any JSON value, given enough fuel and
a continuation that does not start with a digit. -/
theorem parseVal_serVal (v : Json) : ∀ (fuel : Nat) (rest : List Char),
    jsize v ≤ fuel → noDigitStart rest = true →
    parseVal fuel (serVal v ++ rest) = some (v, rest) := by
  intro fuel rest hfuel hrest
  cases fuel with
  | zero => exact absurd hfuel (by have := jsize_pos v; omega)
  | succ f =>
    cases v with
    | null =>
      rw [show serVal Json.null = ['n', 'u', 'l', 'l'] by simp [serVal]]
      simp only [List.cons_append, List.nil_append]
      rw [parseVal.eq_def]
      simp only [Char.reduceEq, reduceIte]
      simp [expectStr, List.isPrefixOf]
    | bool b =>
      cases b with
      | true =>
        rw [show serVal (Json.bool true) = ['t', 'r', 'u', 'e'] by simp [serVal]]
        simp only [List.cons_append, List.nil_append]
        rw [parseVal.eq_def]
        simp only [Char.reduceEq, reduceIte]
        simp [expectStr, List.isPrefixOf]
      | false =>
        rw [show serVal (Json.bool false) = ['f', 'a', 'l', 's', 'e'] by simp [serVal]]
        simp only [List.cons_append, List.nil_append]
        rw [parseVal.eq_def]
        simp only [Char.reduceEq, reduceIte]
        simp [expectStr, List.isPrefixOf]
    | num n =>
      rw [show serVal (Json.num n) = serNum n by simp [serVal]]
      unfold serNum
      by_cases hn : n < 0
      · rw [if_pos hn]
        simp only [List.cons_append]
        rw [parseVal.eq_def]
        simp only [Char.reduceEq, reduceIte]
        rw [parseDigitsNE_natToDigits _ rest hrest]
        simp only []
        have hval : ((-n).toNat : Int) = -n := Int.toNat_of_nonneg (by omega)
        rw [hval, neg_neg]
      · rw [if_neg hn]
        obtain ⟨d, ds, hds⟩ := List.exists_cons_of_ne_nil (natToDigits_ne_nil n.toNat)
        have hd : d.isDigit = true :=
          natToDigits_all_digit n.toNat d (by rw [hds]; exact List.mem_cons_self _ _)
        rw [hds]
        simp only [List.cons_append]
        rw [parseVal_digit hd]
        rw [← List.cons_append, ← hds, parseDigitsNE_natToDigits _ rest hrest]
        simp only []
        rw [Int.toNat_of_nonneg (by omega)]
    | str s =>
      rw [show serVal (Json.str s) = '"' :: serStrBody s ++ ['"'] by simp [serVal, serStr]]
      simp only [List.cons_append, List.append_assoc, List.singleton_append, List.nil_append]
      rw [parseVal.eq_def]
      simp only [Char.reduceEq, reduceIte]
      rw [parseStrBody_serStrBody]
      rfl
    | arr xs =>
      cases xs with
      | nil =>
        rw [show serVal (Json.arr JsonList.nil) = ['[', ']'] by simp [serVal]]
        simp only [List.cons_append, List.nil_append]
        rw [parseVal.eq_def]
        simp only [Char.reduceEq, reduceIte]
      | cons v tl =>
        simp only [jsize, jsizeL] at hfuel
        rw [show serVal (Json.arr (JsonList.cons v tl)) =
          '[' :: serVal v ++ serListTail tl ++ [']'] by simp [serVal]]
        simp only [List.cons_append, List.append_assoc, List.singleton_append, List.nil_append]
        rw [parseVal.eq_def]
        simp only [Char.reduceEq, reduceIte]
        obtain ⟨c2, cs2, hser, hprops⟩ := serVal_head v
        have hne := (serVal_head_props hprops).1
        rw [hser]
        simp only [List.cons_append]
        rw [if_neg hne]
        rw [← List.cons_append, ← hser]
        rw [parseVal_serVal v f (serListTail tl ++ ']' :: rest) (by omega)
          (noDigitStart_serListTail tl rest)]
        simp only []
        rw [parseListTail_serListTail tl f rest (by omega)]
    | obj ms =>
      cases ms with
      | nil =>
        rw [show serVal (Json.obj JsonMembers.nil) = ['{', '}'] by simp [serVal]]
        simp only [List.cons_append, List.nil_append]
        rw [parseVal.eq_def]
        simp only [Char.reduceEq, reduceIte]
      | cons k v tl =>
        simp only [jsize, jsizeM] at hfuel
        rw [show serVal (Json.obj (JsonMembers.cons k v tl)) =
          '{' :: ('"' :: serStrBody k ++ ['"']) ++ ':' :: serVal v ++
            serMembersTail tl ++ ['}'] by simp [serVal, serStr]]
        simp only [List.cons_append, List.append_assoc, List.singleton_append, List.nil_append]
        rw [parseVal.eq_def]
        simp only [Char.reduceEq, reduceIte]
        rw [parseStrBody_serStrBody]
        simp only [Char.reduceEq, reduceIte]
        rw [parseVal_serVal v f (serMembersTail tl ++ '}' :: rest) (by omega)
          (noDigitStart_serMembersTail tl rest)]
        simp only []
        rw [parseMembersTail_serMembersTail tl f rest (by omega)]

/-- Parsing inverts serialization for array tails. -/
theorem parseListTail_serListTail (tl : JsonList) : ∀ (fuel : Nat) (rest : List Char),
    jsizeL tl ≤ fuel →
    parseListTail fuel (serListTail tl ++ ']' :: rest) = some (tl, rest) := by
  intro fuel rest hfuel
  cases fuel with
  | zero => exact absurd hfuel (by have := jsizeL_pos tl; omega)
  | succ f =>
    cases tl with
    | nil =>
      rw [show serListTail JsonList.nil = [] by simp [serListTail], List.nil_append]
      rw [parseListTail.eq_def]
      simp only [Char.reduceEq, reduceIte]
    | cons v tl =>
      simp only [jsizeL] at hfuel
      rw [show serListTail (JsonList.cons v tl) = ',' :: serVal v ++ serListTail tl
        by simp [serListTail]]
      simp only [List.cons_append, List.append_assoc]
      rw [parseListTail.eq_def]
      simp only [Char.reduceEq, reduceIte]
      rw [parseVal_serVal v f (serListTail tl ++ ']' :: rest) (by omega)
        (noDigitStart_serListTail tl rest)]
      simp only []
      rw [parseListTail_serListTail tl f rest (by omega)]

/-- Parsing inverts serialization for object member tails. -/
theorem parseMembersTail_serMembersTail (ms : JsonMembers) :
    ∀ (fuel : Nat) (rest : List Char), jsizeM ms ≤ fuel →
    parseMembersTail fuel (serMembersTail ms ++ '}' :: rest) = some (ms, rest) := by
  intro fuel rest hfuel
  cases fuel with
  | zero => exact absurd hfuel (by have := jsizeM_pos ms; omega)
  | succ f =>
    cases ms with
    | nil =>
      rw [show serMembersTail JsonMembers.nil = [] by simp [serMembersTail],
        List.nil_append]
      rw [parseMembersTail.eq_def]
      simp only [Char.reduceEq, reduceIte]
    | cons k v tl =>
      simp only [jsizeM] at hfuel
      rw [show serMembersTail (JsonMembers.cons k v tl) =
        ',' :: ('"' :: serStrBody k ++ ['"']) ++ ':' :: serVal v ++ serMembersTail tl
        by simp [serMembersTail, serStr]]
      simp only [List.cons_append, List.append_assoc, List.singleton_append, List.nil_append]
      rw [parseMembersTail.eq_def]
      simp only [Char.reduceEq, reduceIte]
      rw [parseStrBody_serStrBody]
      simp only [Char.reduceEq, reduceIte]
      rw [parseVal_serVal v f (serMembersTail tl ++ '}' :: rest) (by omega)
        (noDigitStart_serMembersTail tl rest)]
      simp only []
      rw [parseMembersTail_serMembersTail tl f rest (by omega)]

end

/-! ## Fuel adequacy and top-level JSON parse -/

mutual

theorem jsize_le_serVal (v : Json) : jsize v ≤ 2 * (serVal v).length := by
  cases v with
  | null => simp [jsize, serVal]
  | bool b => cases b <;> simp [jsize, serVal]
  | num n =>
    have h1 : 1 ≤ (serNum n).length := by
      unfold serNum
      by_cases hn : n < 0
      · rw [if_pos hn]; simp
      · rw [if_neg hn]
        exact List.length_pos.mpr (natToDigits_ne_nil n.toNat)
    simp only [jsize, serVal]
    omega
  | str s =>
    simp only [jsize, serVal, serStr]
    simp only [List.length_cons, List.length_append, List.length_singleton]
    omega
  | arr xs =>
    cases xs with
    | nil => simp [jsize, jsizeL, serVal]
    | cons v tl =>
      have h1 := jsize_le_serVal v
      have h2 := jsizeL_le_serListTail tl
      simp only [jsize, jsizeL, serVal, List.length_cons, List.length_append,
        List.length_singleton]
      omega
  | obj ms =>
    cases ms with
    | nil => simp [jsize, jsizeM, serVal]
    | cons k v tl =>
      have h1 := jsize_le_serVal v
      have h2 := jsizeM_le_serMembersTail tl
      simp only [jsize, jsizeM, serVal, serStr, List.length_cons, List.length_append,
        List.length_singleton]
      omega

theorem jsizeL_le_serListTail (tl : JsonList) :
    jsizeL tl ≤ 2 * (serListTail tl).length + 2 := by
  cases tl with
  | nil => simp [jsizeL, serListTail]
  | cons v tl =>
    have h1 := jsize_le_serVal v
    have h2 := jsizeL_le_serListTail tl
    simp only [jsizeL, serListTail, List.length_cons, List.length_append]
    omega

theorem jsizeM_le_serMembersTail (ms : JsonMembers) :
    jsizeM ms ≤ 2 * (serMembersTail ms).length + 2 := by
  cases ms with
  | nil => simp [jsizeM, serMembersTail]
  | cons k v tl =>
    have h1 := jsize_le_serVal v
    have h2 := jsizeM_le_serMembersTail tl
    simp only [jsizeM, serMembersTail, serStr, List.length_cons, List.length_append,
      List.length_singleton]
    omega

end

theorem skipWs_serVal (v : Json) : skipWs (serVal v) = serVal v := by
  obtain ⟨c, cs, hser, hprops⟩ := serVal_head v
  have hws := (serVal_head_props hprops).2.2
  rw [hser]
  unfold skipWs
  exact dropWhile_cons_false hws cs

/-- `serde_json::from_str` inverts `serde_json::to_string`. -/
theorem jsonParse_serVal (v : Json) : jsonParse (serVal v) = Except.ok v := by
  unfold jsonParse
  simp only [skipWs_serVal]
  have hrt := parseVal_serVal v (2 * (serVal v).length + 2) []
    (by have := jsize_le_serVal v; omega) rfl
  rw [List.append_nil] at hrt
  rw [hrt]
  rfl

/-! ## `src/parsing.rs`: `read_message`

The byte source is a `List Char`; `readLine` models
`BufRead::read_line` (reads through the first `\n`, or to end of stream),
and the loop of `read_message` lines 99-116 becomes `readHeaders`, which
returns the final recorded content-length, the last line read (the
terminator, quoted by the missing-length error), and the rest of the
stream. -/

/-- Models `BufRead::read_line`: the line up to and including the first
line-feed (or the whole rest at end of stream), plus the remaining input. -/
def readLine : List Char → List Char × List Char
  | [] => ([], [])
  | c :: cs =>
    if c = '\n' then ([c], cs)
    else
      let p := readLine cs
      (c :: p.1, p.2)

theorem readLine_snd_lt (s : List Char) (hs : s ≠ []) :
    (readLine s).2.length < s.length := by
  induction s with
  | nil => exact absurd rfl hs
  | cons c cs ih =>
    rw [readLine]
    by_cases hc : c = '\n'
    · rw [if_pos hc]
      simp
    · rw [if_neg hc]
      cases hcs : cs with
      | nil => subst hcs; simp [readLine]
      | cons c2 cs2 =>
        subst hcs
        have := ih (by simp)
        simp only [List.length_cons] at this ⊢
        omega

theorem readLine_append (line rest : List Char) (h : '\n' ∉ line) :
    readLine (line ++ '\n' :: rest) = (line ++ ['\n'], rest) := by
  induction line with
  | nil => simp [readLine]
  | cons c cs ih =>
    have hc : c ≠ '\n' := fun he => h (he ▸ List.mem_cons_self c cs)
    have hcs : '\n' ∉ cs := fun hm => h (List.mem_cons_of_mem c hm)
    simp only [List.cons_append]
    rw [readLine, if_neg hc]
    simp only [ih hcs, List.cons_append]

/-- The header loop of `read_message` (lines 99-116): read lines until one
trims to empty, recording the last `Content-Length` seen; propagate header
parse errors; a read of zero bytes is the `Empty` error.  Returns (recorded
content-length, last line read, remaining stream). -/
def readHeaders (s : List Char) (cl : Option Nat) :
    Except ParseError (Option Nat × List Char × List Char) :=
  if hs : s = [] then Except.error ParseError.Empty
  else
    if rsTrim (readLine s).1 = [] then Except.ok (cl, (readLine s).1, (readLine s).2)
    else
      match parse_header (readLine s).1 with
      | Except.ok (LspHeader.ContentLength n) => readHeaders (readLine s).2 (some n)
      | Except.ok LspHeader.ContentType => readHeaders (readLine s).2 cl
      | Except.error e => Except.error e
  termination_by s.length
  decreasing_by
    · exact readLine_snd_lt s hs
    · exact readLine_snd_lt s hs

/-- `read_message` from `src/parsing.rs` lines 94-125: read the header
block, require a content-length, read exactly that many characters as the
body, JSON-parse it.  The returned pair adds the remaining stream (the
reader's position after the frame); the Rust function advances its reader
in place. -/
def read_message (s : List Char) : Except ParseError (Json × List Char) :=
  match readHeaders s none with
  | Except.error e => Except.error e
  | Except.ok (none, line, _) =>
    Except.error (ParseError.Unknown ("missing content-length header: ".data ++ line))
  | Except.ok (some n, _, rest) =>
    if rest.length < n then
      Except.error (ParseError.IoError "failed to fill whole buffer".data)
    else
      match jsonParse (rest.take n) with
      | Except.ok v => Except.ok (v, rest.drop n)
      | Except.error e => Except.error (ParseError.Json e)

/-- `prepare_lsp_json` from `src/client.rs` lines 60-67:
`format!("Content-Length: {}\r\n\r\n{}", request.len(), request)`.
Serialization of a `Json` value cannot fail in the model, so the `Ok` case
is the only one. -/
def prepare_lsp_json (msg : Json) : List Char :=
  "Content-Length: ".data ++ natToDigits (serVal msg).length ++
    "\r\n\r\n".data ++ serVal msg

/-! ## Behaviour of the header loop on well-formed header blocks -/

theorem readHeaders_clLine (n : Nat) (s : List Char) (cl : Option Nat) :
    readHeaders (clLine n ++ s) cl = readHeaders s (some n) := by
  have hpre : clLine n ++ s =
      ("Content-Length: ".data ++ natToDigits n ++ ['\r']) ++ '\n' :: s := by
    simp [clLine, List.append_assoc]
  have hnotin : '\n' ∉ ("Content-Length: ".data ++ natToDigits n ++ ['\r']) := by
    intro hmem
    rcases List.mem_append.mp hmem with h1 | h2
    · rcases List.mem_append.mp h1 with h3 | h4
      · revert h3; decide
      · exact (isDigit_ne (natToDigits_all_digit n _ h4)).2.1 rfl
    · revert h2; decide
  rw [hpre, readHeaders]
  rw [dif_neg (by simp)]
  rw [readLine_append _ _ hnotin]
  simp only []
  rw [if_neg (by
    rw [show ("Content-Length: ".data ++ natToDigits n ++ ['\r']) ++ ['\n'] =
      'C' :: ("ontent-Length: ".data ++ (natToDigits n ++ (['\r'] ++ ['\n']))) by
      rw [show ("Content-Length: ".data : List Char) =
        'C' :: "ontent-Length: ".data from rfl]
      simp [List.append_assoc]]
    exact rsTrim_nonws_head (by decide) _)]
  rw [show ("Content-Length: ".data ++ natToDigits n ++ ['\r']) ++ ['\n'] =
    "Content-Length".data ++ ':' :: ' ' :: (natToDigits n ++ ['\r', '\n']) by
    rw [show ("Content-Length: ".data : List Char) =
      "Content-Length".data ++ [':', ' '] from rfl]
    simp [List.append_assoc]]
  rw [parse_header_clLine n]

theorem readHeaders_crlf (rest : List Char) (cl : Option Nat) :
    readHeaders ('\r' :: '\n' :: rest) cl = Except.ok (cl, ['\r', '\n'], rest) := by
  rw [readHeaders]
  rw [dif_neg (by simp)]
  rw [show readLine ('\r' :: '\n' :: rest) = (['\r', '\n'], rest) by
    simp [readLine]]
  simp only []
  rw [if_pos (by decide)]

/-- A block of canonical content-length header lines. -/
def clLines (ks : List Nat) : List Char :=
  (ks.map clLine).flatten

theorem readHeaders_clLines_last (ks : List Nat) (k : Nat) (s : List Char) :
    ∀ cl : Option Nat,
    readHeaders (clLines ks ++ (clLine k ++ s)) cl = readHeaders s (some k) := by
  induction ks with
  | nil =>
    intro cl
    simp only [clLines, List.map_nil, List.flatten_nil, List.nil_append]
    exact readHeaders_clLine k s cl
  | cons k0 ks ih =>
    intro cl
    simp only [clLines, List.map_cons, List.flatten_cons, List.append_assoc]
    rw [readHeaders_clLine]
    simpa [clLines, List.append_assoc] using ih (some k0)

/-- Reading back one frame produced by the Frame Writer yields exactly the
value that was written and leaves the stream at the next frame. -/
theorem read_message_prepare_lsp_json (v : Json) (extra : List Char) :
    read_message (prepare_lsp_json v ++ extra) = Except.ok (v, extra) := by
  have hstream : prepare_lsp_json v ++ extra =
      clLine (serVal v).length ++ ('\r' :: '\n' :: (serVal v ++ extra)) := by
    unfold prepare_lsp_json clLine
    rw [show ("\r\n\r\n".data : List Char) = ['\r', '\n'] ++ ['\r', '\n'] from rfl]
    simp [List.append_assoc]
  rw [hstream]
  unfold read_message
  rw [readHeaders_clLine, readHeaders_crlf]
  simp only []
  rw [if_neg (by simp [List.length_append])]
  rw [List.take_left, List.drop_left]
  rw [jsonParse_serVal]

/-! ## `src/client.rs`: the correlation engine

The engine state is `LanguageServer` (lines 53-57): the peer writer, the
pending-callback table and the id counter.  Callbacks are opaque one-shot
closures; they are modelled by tokens of an arbitrary type `κ`, and an
invocation is recorded in the observable `calls` log together with its
`Result<Value, Value>` outcome.  `written` is the log of frames handed to
the peer writer, and `inserted` is the (ghost) history of every key ever
inserted into the pending table, used to state invariant I1. -/

/-- Models `Result<Value, Value>`, the argument of a completion callback. -/
inductive Outcome where
  | ok (v : Json)
  | err (v : Json)

/-- The engine state (`LanguageServer` plus observation logs). -/
structure EngineState (κ : Type) where
  pending : List (Nat × κ)
  nextId : Nat
  written : List (List Char)
  calls : List (κ × Outcome)
  inserted : List Nat

/-- `HashMap::get`-style lookup in the pending table. -/
def lookupPending {κ : Type} (p : List (Nat × κ)) (k : Nat) : Option κ :=
  (p.find? (fun e => e.1 == k)).map (fun e => e.2)

/-- `HashMap::remove`: drop the entry with the given key. -/
def removePending {κ : Type} (p : List (Nat × κ)) (k : Nat) : List (Nat × κ) :=
  p.filter (fun e => !(e.1 == k))

/-- `HashMap::insert`: add or replace the entry with the given key. -/
def insertPending {κ : Type} (p : List (Nat × κ)) (k : Nat) (v : κ) : List (Nat × κ) :=
  (k, v) :: removePending p k

def mkMembers : List (List Char × Json) → JsonMembers
  | [] => JsonMembers.nil
  | (k, v) :: tl => JsonMembers.cons k v (mkMembers tl)

/-- Field access on a JSON object; models `serde_json::Value::get`. -/
def JsonMembers.find : JsonMembers → List Char → Option Json
  | JsonMembers.nil, _ => none
  | JsonMembers.cons k v tl, key => if k = key then some v else JsonMembers.find tl key

def jGet (v : Json) (key : List Char) : Option Json :=
  match v with
  | Json.obj ms => ms.find key
  | _ => none

/-- `LanguageServer::send_rpc` + `write` (lines 71-76, 116-122): frame the
value with `prepare_lsp_json` and hand the frame to the writer in one
flush. -/
def send_rpc {κ : Type} (st : EngineState κ) (rpc : Json) : EngineState κ :=
  { st with written := st.written ++ [prepare_lsp_json rpc] }

/-- `LanguageServer::send_request` (lines 78-89): build the request with the
current `next_id`, insert the callback, increment `next_id`, emit the
frame. -/
def send_request {κ : Type} (st : EngineState κ) (method : List Char) (params : Json)
    (completion : κ) : EngineState κ :=
  let request := Json.obj (mkMembers
    [("jsonrpc".data, Json.str "2.0".data),
     ("id".data, Json.num (st.nextId : Int)),
     ("method".data, Json.str method),
     ("params".data, params)])
  send_rpc
    { st with pending := insertPending st.pending st.nextId completion,
              inserted := st.inserted ++ [st.nextId],
              nextId := st.nextId + 1 }
    request

/-- `LanguageServer::send_notification` (lines 91-98): build the
notification (no id) and emit the frame. -/
def send_notification {κ : Type} (st : EngineState κ) (method : List Char)
    (params : Json) : EngineState κ :=
  let notification := Json.obj (mkMembers
    [("jsonrpc".data, Json.str "2.0".data),
     ("method".data, Json.str method),
     ("params".data, params)])
  send_rpc st notification

/-- `LanguageServer::handle_response` (lines 100-106): remove the pending
entry (panicking if absent) and invoke its callback with `Ok`. -/
def handle_response {κ : Type} (st : EngineState κ) (id : Nat) (result : Json) :
    Except (List Char) (EngineState κ) :=
  match lookupPending st.pending id with
  | none =>
    Except.error ("id ".data ++ natToDigits id ++ " missing from request table".data)
  | some callback =>
    Except.ok { st with pending := removePending st.pending id,
                        calls := st.calls ++ [(callback, Outcome.ok result)] }

/-- `LanguageServer::handle_error` (lines 108-114): remove the pending entry
(panicking if absent) and invoke its callback with `Err`. -/
def handle_error {κ : Type} (st : EngineState κ) (id : Nat) (error : Json) :
    Except (List Char) (EngineState κ) :=
  match lookupPending st.pending id with
  | none =>
    Except.error ("id ".data ++ natToDigits id ++ " missing from request table".data)
  | some callback =>
    Except.ok { st with pending := removePending st.pending id,
                        calls := st.calls ++ [(callback, Outcome.err error)] }

/-- `number_from_id` (lines 129-138): accept a JSON number (coerced to an
unsigned integer) or a JSON string (parsed as one); anything else, or an
absent id, panics.  (The model's numbers are integers, so the `as_u64`
failure is a negative number.) -/
def number_from_id (id : Option Json) : Except (List Char) Nat :=
  match id with
  | none => Except.error "response missing id field".data
  | some (Json.num n) =>
    if n < 0 then Except.error "failed to take id as u64".data
    else Except.ok n.toNat
  | some (Json.str s) =>
    match parseUsize s with
    | some m => Except.ok m
    | none => Except.error "failed to convert string id to u64".data
  | some _ => Except.error "unexpected value for id field".data

/-- The four JSON-RPC message shapes. -/
inductive RpcKind where
  | request
  | notification
  | success
  | error

/-- Modelled from the spec: the classifier of the external `jsonrpc_lite`
crate (`JsonRpc::parse`), as specified in §3: a JSON object with
`jsonrpc = "2.0"`, classified by the presence of fields, trying the
variants in the listed order (Request: `method` and `id`; Notification:
`method` without `id`; Success: `id` and `result`; Error: `id` and
`error`).  A value fitting no variant fails to parse. -/
def jsonRpcParse (v : Json) : Except (List Char) RpcKind :=
  if jGet v "jsonrpc".data ≠ some (Json.str "2.0".data) then
    Except.error "not a JSON-RPC 2.0 object".data
  else if (jGet v "method".data).isSome ∧ (jGet v "id".data).isSome then
    Except.ok RpcKind.request
  else if (jGet v "method".data).isSome then
    Except.ok RpcKind.notification
  else if (jGet v "id".data).isSome ∧ (jGet v "result".data).isSome then
    Except.ok RpcKind.success
  else if (jGet v "id".data).isSome ∧ (jGet v "error".data).isSome then
    Except.ok RpcKind.error
  else
    Except.error "unclassifiable message".data

/-- `LanguageServerRef::handle_msg` (lines 158-185): classify the inbound
message (panicking if unclassifiable), log-and-drop requests and
notifications, and route success/error responses through
`handle_response`/`handle_error` after normalizing the id. -/
def handle_msg {κ : Type} (st : EngineState κ) (val : Json) :
    Except (List Char) (EngineState κ) :=
  match jsonRpcParse val with
  | Except.error _ => Except.error "problem creating JsonRpc instance".data
  | Except.ok RpcKind.request => Except.ok st
  | Except.ok RpcKind.notification => Except.ok st
  | Except.ok RpcKind.success =>
    match number_from_id (jGet val "id".data) with
    | Except.error e => Except.error e
    | Except.ok id =>
      match jGet val "result".data with
      | none => Except.error "response missing 'result' field".data
      | some _ => handle_response st id val
  | Except.ok RpcKind.error =>
    match number_from_id (jGet val "id".data) with
    | Except.error e => Except.error e
    | Except.ok id => handle_error st id val

/-- `LanguageServerRef::new` (lines 142-148): empty pending table, counter
starting at 1. -/
def LanguageServerRef.new {κ : Type} : EngineState κ :=
  { pending := [], nextId := 1, written := [], calls := [], inserted := [] }

/-- One operation of a session: the two producer operations and ingest. -/
inductive Op (κ : Type) where
  | req (method : List Char) (params : Json) (completion : κ)
  | notif (method : List Char) (params : Json)
  | ingest (v : Json)

/-- One step of a session; a panic (`Except.error`) aborts the process. -/
def step {κ : Type} (st : EngineState κ) : Op κ → Except (List Char) (EngineState κ)
  | Op.req m p cb => Except.ok (send_request st m p cb)
  | Op.notif m p => Except.ok (send_notification st m p)
  | Op.ingest v => handle_msg st v

/-- Run a sequence of operations from a state, stopping at the first
panic. -/
def runOps {κ : Type} (st : EngineState κ) : List (Op κ) → Except (List Char) (EngineState κ)
  | [] => Except.ok st
  | op :: ops =>
    match step st op with
    | Except.ok st2 => runOps st2 ops
    | Except.error e => Except.error e

/-- The identifiers allocated (in order) by a sequence of `send_request`
calls: each call stamps the current `next_id` into its request. -/
def allocTrace {κ : Type} (st : EngineState κ) :
    List (List Char × Json × κ) → List Nat
  | [] => []
  | (m, p, cb) :: rs => st.nextId :: allocTrace (send_request st m p cb) rs

/-! ## Claim theorems -/

theorem allocTrace_range {κ : Type} (reqs : List (List Char × Json × κ)) :
    ∀ st : EngineState κ, allocTrace st reqs = List.range' st.nextId reqs.length := by
  induction reqs with
  | nil => intro st; rfl
  | cons r rs ih =>
    intro st
    obtain ⟨m, p, cb⟩ := r
    rw [show allocTrace st ((m, p, cb) :: rs) =
      st.nextId :: allocTrace (send_request st m p cb) rs from rfl]
    rw [ih]
    rw [show (send_request st m p cb).nextId = st.nextId + 1 from rfl]
    rw [show ((m, p, cb) :: rs).length = rs.length + 1 from rfl]
    rw [List.range'_succ]

/-- C2: for every sequence of `send_request` calls on an engine fresh from
`LanguageServerRef::new`, the allocated request identifiers are exactly
`1, 2, 3, ...` in call order: starting at 1, increasing by 1 with no gaps,
and never repeating within the session. -/
theorem claim_C2 {κ : Type} (reqs : List (List Char × Json × κ)) :
    allocTrace LanguageServerRef.new reqs = List.range' 1 reqs.length :=
  allocTrace_range reqs LanguageServerRef.new

/-- C5, counterexample: a header line whose value itself contains a further
`": "` does not split into exactly two parts, so `parse_header` reports it
as a malformed header instead of recognizing the header name. -/
theorem claim_C5_counterexample :
    parse_header "Content-Type: utf-8: x".data =
      Except.error (ParseError.Unknown "malformed header: Content-Type: utf-8: x".data) ∧
    parse_header "Content-Type: utf-8: x".data ≠ Except.ok LspHeader.ContentType := by
  have h1 : parse_header "Content-Type: utf-8: x".data =
      Except.error (ParseError.Unknown "malformed header: Content-Type: utf-8: x".data) := rfl
  refine ⟨h1, ?_⟩
  rw [h1]
  simp

/-- C5, amended: `parse_header` splits the line on every `": "` occurrence
(not only the first); it reports the malformed-header error exactly when
that split does not have exactly two parts — in particular a line with a
further `": "` inside its value is malformed — and on a two-part split it
trims and lower-cases both sides and matches the name, unknown names being
the distinct unknown-header error. -/
theorem claim_C5_amended (s : List Char) :
    (parse_header s = Except.error (ParseError.Unknown ("malformed header: ".data ++ s)) ↔
      (splitColonSpace s).length ≠ 2) ∧
    (∀ a b, (splitColonSpace s).map (fun p => rsToLower (rsTrim p)) = [a, b] →
      a ≠ "content-type".data → a ≠ "content-length".data →
      parse_header s = Except.error (ParseError.Unknown ("Unknown header: ".data ++ s))) := by
  have hmsg : ("Unknown header: ".data ++ s) ≠ ("malformed header: ".data ++ s) := by
    rw [show ("Unknown header: ".data : List Char) = 'U' :: "nknown header: ".data
      from rfl]
    rw [show ("malformed header: ".data : List Char) = 'm' :: "alformed header: ".data
      from rfl]
    simp only [List.cons_append]
    intro h
    exact absurd (List.head_eq_of_cons_eq h) (by decide)
  have hlen : ((splitColonSpace s).map (fun p => rsToLower (rsTrim p))).length =
      (splitColonSpace s).length := List.length_map _ _
  unfold parse_header
  cases hm : (splitColonSpace s).map (fun p => rsToLower (rsTrim p)) with
  | nil =>
    rw [hm] at hlen
    simp only [List.length_nil] at hlen
    refine ⟨⟨fun _ => by omega, fun _ => rfl⟩, fun a b hab _ _ => ?_⟩
    exact absurd hab (by simp)
  | cons a tl =>
    cases tl with
    | nil =>
      rw [hm] at hlen
      simp only [List.length_cons, List.length_nil] at hlen
      refine ⟨⟨fun _ => by omega, fun _ => rfl⟩, fun a' b' hab _ _ => ?_⟩
      exact absurd hab (by simp)
    | cons b tl2 =>
      cases tl2 with
      | nil =>
        rw [hm] at hlen
        simp only [List.length_cons, List.length_nil] at hlen
        constructor
        · constructor
          · intro hres
            exfalso
            simp only [] at hres
            by_cases hct : a = "content-type".data
            · rw [if_pos hct] at hres
              by_cases henc : rsToLower b = "utf-8".data ∨ rsToLower b = "utf8".data
              · rw [if_pos henc] at hres; exact absurd hres (by simp)
              · rw [if_neg henc] at hres; exact absurd hres (by simp)
            · rw [if_neg hct] at hres
              by_cases hcl : a = "content-length".data
              · rw [if_pos hcl] at hres
                cases hp : parseUsize b with
                | some m => rw [hp] at hres; exact absurd hres (by simp)
                | none => rw [hp] at hres; exact absurd hres (by simp)
              · rw [if_neg hcl] at hres
                simp only [Except.error.injEq, ParseError.Unknown.injEq] at hres
                exact hmsg hres
          · intro hne
            omega
        · intro a' b' hab hct hcl
          injection hab with ha hb
          injection hb with hb _
          subst ha
          simp only []
          rw [if_neg hct, if_neg hcl]
      | cons c tl3 =>
        rw [hm] at hlen
        simp only [List.length_cons] at hlen
        refine ⟨⟨fun _ => by omega, fun _ => rfl⟩, fun a' b' hab _ _ => ?_⟩
        exact absurd hab (by simp)

/-- C6: an inbound wire id that is the JSON string holding the decimal
representation of `n` normalizes (via `number_from_id`) to the same integer
key `n` as the JSON number `n`, so both route to the pending entry
registered under `n`. -/
theorem claim_C6 (n : Nat) :
    number_from_id (some (Json.str (natToDigits n))) = Except.ok n ∧
    number_from_id (some (Json.num (n : Int))) = Except.ok n := by
  constructor
  · unfold number_from_id
    simp only []
    rw [parseUsize_natToDigits]
  · unfold number_from_id
    simp only []
    rw [if_neg (by omega)]
    simp

/-- C9: `send_notification` leaves the pending table, the id counter, the
callback log and the insertion history unchanged; its only effect is to
emit one frame (the notification object) to the writer. -/
theorem claim_C9 {κ : Type} (st : EngineState κ) (method : List Char) (params : Json) :
    (send_notification st method params).pending = st.pending ∧
    (send_notification st method params).nextId = st.nextId ∧
    (send_notification st method params).calls = st.calls ∧
    (send_notification st method params).inserted = st.inserted ∧
    (send_notification st method params).written = st.written ++
      [prepare_lsp_json (Json.obj (mkMembers
        [("jsonrpc".data, Json.str "2.0".data),
         ("method".data, Json.str method),
         ("params".data, params)]))] :=
  ⟨rfl, rfl, rfl, rfl, rfl⟩

theorem jsonRpcParse_success_result {v : Json}
    (h : jsonRpcParse v = Except.ok RpcKind.success) :
    ∃ r, jGet v "result".data = some r := by
  unfold jsonRpcParse at h
  by_cases h1 : jGet v "jsonrpc".data ≠ some (Json.str "2.0".data)
  · rw [if_pos h1] at h; exact absurd h (by simp)
  rw [if_neg h1] at h
  by_cases h2 : (jGet v "method".data).isSome ∧ (jGet v "id".data).isSome
  · rw [if_pos h2] at h; exact absurd h (by simp)
  rw [if_neg h2] at h
  by_cases h3 : (jGet v "method".data).isSome
  · rw [if_pos h3] at h; exact absurd h (by simp)
  rw [if_neg h3] at h
  by_cases h4 : (jGet v "id".data).isSome ∧ (jGet v "result".data).isSome
  · exact Option.isSome_iff_exists.mp h4.2
  rw [if_neg h4] at h
  by_cases h5 : (jGet v "id".data).isSome ∧ (jGet v "error".data).isSome
  · rw [if_pos h5] at h; exact absurd h (by simp)
  · rw [if_neg h5] at h; exact absurd h (by simp)

/-- C3: an ingested message classified as a success response whose id
normalizes to an in-flight key has its pending entry removed and its
callback invoked exactly once with `Ok` of the full message; symmetrically
an error response invokes the callback exactly once with `Err` of the full
message. -/
theorem claim_C3 {κ : Type} (st : EngineState κ) (val : Json) (n : Nat) (cb : κ)
    (hn : number_from_id (jGet val "id".data) = Except.ok n)
    (hcb : lookupPending st.pending n = some cb) :
    (jsonRpcParse val = Except.ok RpcKind.success →
      handle_msg st val = Except.ok
        { st with pending := removePending st.pending n,
                  calls := st.calls ++ [(cb, Outcome.ok val)] }) ∧
    (jsonRpcParse val = Except.ok RpcKind.error →
      handle_msg st val = Except.ok
        { st with pending := removePending st.pending n,
                  calls := st.calls ++ [(cb, Outcome.err val)] }) := by
  constructor
  · intro hcls
    obtain ⟨r, hr⟩ := jsonRpcParse_success_result hcls
    unfold handle_msg
    rw [hcls]
    simp only []
    rw [hn]
    simp only []
    rw [hr]
    simp only []
    unfold handle_response
    rw [hcb]
  · intro hcls
    unfold handle_msg
    rw [hcls]
    simp only []
    rw [hn]
    simp only []
    unfold handle_error
    rw [hcb]

/-- C4: ingesting a response-shaped message (a `jsonrpc = "2.0"` object
without `method` and with a `result` or `error` field) aborts the process
instead of returning or invoking a callback whenever the id is absent, has
a non-number/non-string type, cannot be coerced to an unsigned integer, or
normalizes to a key with no pending entry. -/
theorem claim_C4 {κ : Type} (st : EngineState κ) (val : Json)
    (hrpc : jGet val "jsonrpc".data = some (Json.str "2.0".data))
    (hmeth : jGet val "method".data = none)
    (_hresp : (jGet val "result".data).isSome ∨ (jGet val "error".data).isSome)
    (hbad : ∀ n, number_from_id (jGet val "id".data) = Except.ok n →
      lookupPending st.pending n = none) :
    ∃ e, handle_msg st val = Except.error e := by
  have hcls : jsonRpcParse val =
      (if (jGet val "id".data).isSome ∧ (jGet val "result".data).isSome then
        Except.ok RpcKind.success
      else if (jGet val "id".data).isSome ∧ (jGet val "error".data).isSome then
        Except.ok RpcKind.error
      else Except.error "unclassifiable message".data) := by
    unfold jsonRpcParse
    rw [if_neg (by simp [hrpc]), if_neg (by simp [hmeth]), if_neg (by simp [hmeth])]
  unfold handle_msg
  rw [hcls]
  by_cases h4 : (jGet val "id".data).isSome ∧ (jGet val "result".data).isSome
  · rw [if_pos h4]
    simp only []
    cases hnm : number_from_id (jGet val "id".data) with
    | error e => exact ⟨e, rfl⟩
    | ok n =>
      obtain ⟨r, hr⟩ := Option.isSome_iff_exists.mp h4.2
      rw [hr]
      simp only []
      unfold handle_response
      rw [hbad n hnm]
      exact ⟨_, rfl⟩
  · rw [if_neg h4]
    by_cases h5 : (jGet val "id".data).isSome ∧ (jGet val "error".data).isSome
    · rw [if_pos h5]
      simp only []
      cases hnm : number_from_id (jGet val "id".data) with
      | error e => exact ⟨e, rfl⟩
      | ok n =>
        simp only []
        unfold handle_error
        rw [hbad n hnm]
        exact ⟨_, rfl⟩
    · rw [if_neg h5]
      exact ⟨_, rfl⟩

theorem handle_msg_fields {κ : Type} (st st' : EngineState κ) (v : Json)
    (h : handle_msg st v = Except.ok st') :
    st'.inserted = st.inserted ∧ st'.nextId = st.nextId := by
  unfold handle_msg at h
  cases hcls : jsonRpcParse v with
  | error e =>
    rw [hcls] at h
    exact absurd h (by simp)
  | ok k =>
    cases k with
    | request =>
      rw [hcls] at h
      simp only [Except.ok.injEq] at h
      subst h
      exact ⟨rfl, rfl⟩
    | notification =>
      rw [hcls] at h
      simp only [Except.ok.injEq] at h
      subst h
      exact ⟨rfl, rfl⟩
    | success =>
      rw [hcls] at h
      simp only [] at h
      cases hnm : number_from_id (jGet v "id".data) with
      | error e => rw [hnm] at h; exact absurd h (by simp)
      | ok n =>
        rw [hnm] at h
        simp only [] at h
        cases hr : jGet v "result".data with
        | none => rw [hr] at h; exact absurd h (by simp)
        | some r =>
          rw [hr] at h
          simp only [] at h
          unfold handle_response at h
          cases hl : lookupPending st.pending n with
          | none => rw [hl] at h; exact absurd h (by simp)
          | some cb =>
            rw [hl] at h
            simp only [Except.ok.injEq] at h
            subst h
            exact ⟨rfl, rfl⟩
    | error =>
      rw [hcls] at h
      simp only [] at h
      cases hnm : number_from_id (jGet v "id".data) with
      | error e => rw [hnm] at h; exact absurd h (by simp)
      | ok n =>
        rw [hnm] at h
        simp only [] at h
        unfold handle_error at h
        cases hl : lookupPending st.pending n with
        | none => rw [hl] at h; exact absurd h (by simp)
        | some cb =>
          rw [hl] at h
          simp only [Except.ok.injEq] at h
          subst h
          exact ⟨rfl, rfl⟩

theorem runOps_inv {κ : Type} (ops : List (Op κ)) :
    ∀ st st' : EngineState κ, runOps st ops = Except.ok st' →
    (∀ k ∈ st.inserted, k < st.nextId) → ∀ k ∈ st'.inserted, k < st'.nextId := by
  induction ops with
  | nil =>
    intro st st' hrun hinv
    simp only [runOps, Except.ok.injEq] at hrun
    subst hrun
    exact hinv
  | cons op ops ih =>
    intro st st' hrun hinv
    simp only [runOps] at hrun
    cases hstep : step st op with
    | error e => rw [hstep] at hrun; exact absurd hrun (by simp)
    | ok st2 =>
      rw [hstep] at hrun
      simp only [] at hrun
      refine ih st2 st' hrun ?_
      cases op with
      | req m p cb =>
        simp only [step, Except.ok.injEq] at hstep
        subst hstep
        intro k hk
        simp only [send_request, send_rpc] at hk ⊢
        rcases List.mem_append.mp hk with h1 | h2
        · have := hinv k h1; omega
        · simp only [List.mem_singleton] at h2; omega
      | notif m p =>
        simp only [step, Except.ok.injEq] at hstep
        subst hstep
        exact hinv
      | ingest v =>
        simp only [step] at hstep
        obtain ⟨hi, hn⟩ := handle_msg_fields st st2 v hstep
        rw [hi, hn]
        exact hinv

/-- C7: after any interleaving of send-request, send-notification and
ingest operations that runs without a panic from a fresh engine, the
next-identifier field strictly exceeds every key ever inserted into the
pending mapping during the session. -/
theorem claim_C7 {κ : Type} (ops : List (Op κ)) (st : EngineState κ) (k : Nat)
    (hrun : runOps LanguageServerRef.new ops = Except.ok st)
    (hk : k ∈ st.inserted) : k < st.nextId :=
  runOps_inv ops LanguageServerRef.new st hrun
    (by intro k hk; simp [LanguageServerRef.new] at hk) k hk

/-- C1: for every JSON value handed to the Frame Writer, feeding the
emitted bytes (`Content-Length: N\r\n\r\n` followed by the N-unit
serialization) back into the Frame Reader's `read_message` yields exactly
that value, leaving any following bytes unread. -/
theorem claim_C1 (v : Json) (extra : List Char) :
    read_message (prepare_lsp_json v ++ extra) = Except.ok (v, extra) :=
  read_message_prepare_lsp_json v extra

/-- C8: a frame whose (well-formed) header block records `Content-Length: 0`
yields a zero-byte body and a JSON-parse error (`ParseError.Json`), never a
success. -/
theorem claim_C8 (ks : List Nat) (rest : List Char) :
    read_message (clLines ks ++ (clLine 0 ++ ('\r' :: '\n' :: rest))) =
      Except.error (ParseError.Json "EOF while parsing a value".data) := by
  unfold read_message
  rw [readHeaders_clLines_last, readHeaders_crlf]
  simp only []
  rw [if_neg (by omega)]
  rw [show List.take 0 rest = [] from rfl]
  rfl

/-- C10: when a header block carries several content-length lines, the last
one's value is used as the body length — each later line overwrites the
earlier ones, and no duplicate-header error is raised: the frame is read
exactly as if only the last content-length line were present. -/
theorem claim_C10 (k0 : Nat) (ks : List Nat) (k : Nat) (s : List Char) :
    read_message (clLines (k0 :: ks) ++ (clLine k ++ s)) =
      read_message (clLine k ++ s) := by
  unfold read_message
  rw [readHeaders_clLines_last, readHeaders_clLine]

theorem claim_C3_witness :
    handle_msg (κ := Nat)
      { pending := [(7, 0)], nextId := 8, written := [], calls := [], inserted := [7] }
      (Json.obj (mkMembers
        [("jsonrpc".data, Json.str "2.0".data),
         ("id".data, Json.num 7),
         ("result".data, Json.null)])) =
    Except.ok
      { pending := [], nextId := 8, written := [],
        calls := [(0, Outcome.ok (Json.obj (mkMembers
          [("jsonrpc".data, Json.str "2.0".data),
           ("id".data, Json.num 7),
           ("result".data, Json.null)])))],
        inserted := [7] } :=
  (claim_C3
    { pending := [(7, 0)], nextId := 8, written := [], calls := [], inserted := [7] }
    (Json.obj (mkMembers
      [("jsonrpc".data, Json.str "2.0".data),
       ("id".data, Json.num 7),
       ("result".data, Json.null)]))
    7 0 (by rfl) (by rfl)).1 (by rfl)

theorem claim_C4_witness :
    ∃ e, handle_msg (κ := Nat) LanguageServerRef.new
      (Json.obj (mkMembers
        [("jsonrpc".data, Json.str "2.0".data),
         ("id".data, Json.num 1),
         ("result".data, Json.null)])) = Except.error e :=
  claim_C4 LanguageServerRef.new
    (Json.obj (mkMembers
      [("jsonrpc".data, Json.str "2.0".data),
       ("id".data, Json.num 1),
       ("result".data, Json.null)]))
    (by rfl) (by rfl) (Or.inl (by rfl)) (fun n _ => rfl)

theorem claim_C5_amended_witness :
    parse_header "Hello: world".data =
      Except.error (ParseError.Unknown "Unknown header: Hello: world".data) :=
  (claim_C5_amended "Hello: world".data).2 "hello".data "world".data
    (by decide) (by decide) (by decide)

theorem claim_C7_witness :
    1 < (({ pending := [], nextId := 2,
            written := [prepare_lsp_json (Json.obj (mkMembers
              [("jsonrpc".data, Json.str "2.0".data),
               ("id".data, Json.num 1),
               ("method".data, Json.str "a".data),
               ("params".data, Json.null)]))],
            calls := [(0, Outcome.ok (Json.obj (mkMembers
              [("jsonrpc".data, Json.str "2.0".data),
               ("id".data, Json.num 1),
               ("result".data, Json.null)])))],
            inserted := [1] } : EngineState Nat)).nextId :=
  claim_C7
    [Op.req "a".data Json.null 0,
     Op.ingest (Json.obj (mkMembers
       [("jsonrpc".data, Json.str "2.0".data),
        ("id".data, Json.num 1),
        ("result".data, Json.null)]))]
    { pending := [], nextId := 2,
      written := [prepare_lsp_json (Json.obj (mkMembers
        [("jsonrpc".data, Json.str "2.0".data),
         ("id".data, Json.num 1),
         ("method".data, Json.str "a".data),
         ("params".data, Json.null)]))],
      calls := [(0, Outcome.ok (Json.obj (mkMembers
        [("jsonrpc".data, Json.str "2.0".data),
         ("id".data, Json.num 1),
         ("result".data, Json.null)])))],
      inserted := [1] }
    1 (by rfl) (by simp)
